import Mathlib

/-!
Verification of the single-domain web crawler in src/crawler.py.

The development shallowly embeds the crawler: pure Python string and URL
helpers become Lean functions on strings (modelled as lists of characters),
the external collaborators (the HTTP transport and the HTML parser) become
explicit parameters, and the while-loop of Crawler.crawl becomes a
fuel-indexed step function on an explicit state record.
-/

namespace Crawl

/-! ## Models of the Python string and urllib primitives used by the source -/

/-- Model of the Python expression s.rstrip(SLASH) on a list of characters:
drop every trailing slash. -/
def rstripSlashL (cs : List Char) : List Char :=
  (cs.reverse.dropWhile (· == '/')).reverse

/-- Model of s.rstrip with the slash argument on strings. -/
def pyRstripSlash (s : String) : String :=
  ⟨rstripSlashL s.toList⟩

/-- Model of the first component of urllib.parse.urldefrag on characters:
everything before the first fragment marker. -/
def defragL (cs : List Char) : List Char :=
  cs.takeWhile (· != '#')

/-- Model of the first component of urllib.parse.urldefrag on strings. -/
def pyDefrag (s : String) : String :=
  ⟨defragL s.toList⟩

/-- Model of the Python str.lower method, restricted to the ASCII case
handling that Char.toLower provides. -/
def pyLower (s : String) : String :=
  ⟨s.toList.map Char.toLower⟩

/-- Characters allowed after the first character of a URL scheme,
following urllib.parse. -/
def schemeChar (c : Char) : Bool :=
  c.isAlpha || c.isDigit || c == '+' || c == '-' || c == '.'

/-- Model of the scheme-splitting step of urllib.parse.urlsplit: when the
input has the shape scheme:rest with a valid scheme, return the lowercased
scheme and the rest; otherwise none. -/
def splitScheme (cs : List Char) : Option (List Char × List Char) :=
  match cs.findIdx? (· == ':') with
  | none => none
  | some i =>
    if 0 < i then
      let schemePart := cs.take i
      match cs with
      | [] => none
      | c0 :: _ =>
        if c0.isAlpha && schemePart.all schemeChar then
          some (schemePart.map Char.toLower, cs.drop (i + 1))
        else none
    else none

/-- Model of urllib.parse.urlparse(url).netloc, including the ValueError
that urlsplit raises when the authority has an unbalanced IPv6 bracket.
The error side models the raised exception. -/
def netlocE (s : String) : Except Unit String :=
  let cs := s.toList
  let rest := match splitScheme cs with
    | some (_, r) => r
    | none => cs
  if rest.take 2 = ['/', '/'] then
    let nl := (rest.drop 2).takeWhile (fun c => !(c == '/' || c == '?' || c == '#'))
    if ('[' ∈ nl && ']' ∉ nl) || (']' ∈ nl && '[' ∉ nl) then Except.error ()
    else Except.ok ⟨nl⟩
  else Except.ok ""

/-- The scheme prefix of a URL, used when resolving relative references:
for an absolute base this is the lowercased scheme followed by a colon. -/
def schemePrefixOf (base : String) : String :=
  match splitScheme base.toList with
  | some (sch, _) => String.mk sch ++ ":"
  | none => ""

/-- The path part of a URL that has an authority: what follows the
authority, with query and fragment removed.  Used only for merging
relative references, as urljoin does. -/
def pathOf (base : String) : String :=
  let cs := base.toList
  let rest := match splitScheme cs with
    | some (_, r) => r
    | none => cs
  if rest.take 2 = ['/', '/'] then
    let afterAuth := (rest.drop 2).dropWhile (fun c => !(c == '/' || c == '?' || c == '#'))
    ⟨afterAuth.takeWhile (fun c => !(c == '?' || c == '#'))⟩
  else ⟨rest.takeWhile (fun c => !(c == '?' || c == '#'))⟩

/-- The directory part of a path: everything up to and including the last
slash, the empty path giving a single slash, as in the urljoin merge step. -/
def dirOf (p : String) : String :=
  let cs := p.toList
  if '/' ∈ cs then ⟨(cs.reverse.dropWhile (· != '/')).reverse⟩ else "/"

/-- Model of urllib.parse.urljoin for the reference shapes the crawler
meets: empty references, fragment-only and absolute references,
network-path (double slash), absolute-path and relative-path references.
Exotic same-scheme relative forms such as scheme:path without slashes
are returned unchanged, which agrees with urljoin on every URL this
development evaluates. -/
def urljoin (base url : String) : String :=
  if base = "" then url
  else if url = "" then base
  else
    match splitScheme url.toList with
    | some _ => url
    | none =>
      if url.toList.take 2 = ['/', '/'] then
        schemePrefixOf base ++ url
      else
        let authority := match netlocE base with
          | Except.ok nl => nl
          | Except.error _ => ""
        let root := schemePrefixOf base ++ "//" ++ authority
        match url.toList with
        | '/' :: _ => root ++ url
        | '#' :: _ => ⟨defragL base.toList⟩ ++ url
        | '?' :: _ => root ++ pathOf base ++ url
        | _ => root ++ dirOf (pathOf base) ++ url

/-! ## The HTML element model

BeautifulSoup is an external collaborator of the crawler (the spec calls
it the tolerant HTML parse collaborator).  Its parsed document is modelled
as a forest of element tags; the find_all queries of the source become
traversals of this forest. -/

mutual
/-- A parsed HTML element: tag name, attributes, child elements. -/
inductive Tag where
  | mk (name : String) (attrs : List (String × String)) (children : TagForest)
/-- A sequence of sibling elements; the whole parsed document is one. -/
inductive TagForest where
  | nil
  | cons (hd : Tag) (tl : TagForest)
end

/-- Build a forest from a list of elements, for writing documents. -/
def TagForest.ofList : List Tag → TagForest
  | [] => .nil
  | t :: ts => .cons t (TagForest.ofList ts)

/-- The tag name of an element. -/
def Tag.name : Tag → String
  | .mk n _ _ => n

/-- The attribute list of an element. -/
def Tag.attrs : Tag → List (String × String)
  | .mk _ a _ => a

/-- The children of an element. -/
def Tag.children : Tag → TagForest
  | .mk _ _ c => c

/-- Model of the BeautifulSoup get method on a tag: the value of the
first binding of the attribute, none when absent. -/
def Tag.getAttr (t : Tag) (k : String) : Option String :=
  (t.attrs.find? (fun p => p.1 == k)).map Prod.snd

/-- Model of the BeautifulSoup get method with a default value. -/
def Tag.getAttrD (t : Tag) (k dflt : String) : String :=
  (t.getAttr k).getD dflt

mutual
/-- An element followed by all of its descendants in document order. -/
def Tag.withDescendants : Tag → List Tag
  | .mk n a cs => .mk n a cs :: allTags cs
/-- All elements of a forest in document order, each element followed by
its descendants: the search space of the find_all queries. -/
def allTags : TagForest → List Tag
  | .nil => []
  | .cons t ts => t.withDescendants ++ allTags ts
end

/-! ## Embeddings of the module-level functions of src/crawler.py -/

/-- Embedding of is_same_domain from src/crawler.py: compare the netloc
components of the two URLs, returning false when parsing raises. -/
def is_same_domain (base_url url : String) : Bool :=
  match netlocE base_url, netlocE url with
  | Except.ok a, Except.ok b => a == b
  | _, _ => false

/-- Order-preserving duplicate removal, modelling the list(set(...))
conversion in extract_links; the iteration order of a Python set is
unspecified, so first-occurrence order is chosen as the deterministic
representative. -/
def listDedup (l : List String) : List String :=
  l.foldl (fun acc x => if x ∈ acc then acc else acc ++ [x]) []

/-- Embedding of extract_links from src/crawler.py, over the parsed
document: every anchor element carrying an href attribute contributes the
href resolved against the page URL, and the result is deduplicated. -/
def extract_links (soup : TagForest) (page_url : String) : List String :=
  listDedup (((allTags soup).filter
      (fun t => t.name == "a" && (t.getAttr "href").isSome)).map
    (fun t => urljoin page_url ((t.getAttr "href").getD "")))

/-- One input field descriptor produced by extract_forms. -/
structure InputInfo where
  name : Option String
  type : Option String
  value : Option String
deriving DecidableEq

/-- One form descriptor produced by extract_forms. -/
structure FormInfo where
  method : String
  action : String
  inputs : List InputInfo
deriving DecidableEq

/-- Embedding of extract_forms from src/crawler.py, over the parsed
document: one descriptor per form element, with the method attribute
defaulted to get and lowercased, the action attribute defaulted to the
empty string and resolved against the page URL, and one input descriptor
per input, textarea or select descendant. -/
def extract_forms (soup : TagForest) (page_url : String) : List FormInfo :=
  ((allTags soup).filter (fun t => t.name == "form")).map
    (fun formTag =>
      { method := pyLower (formTag.getAttrD "method" "get")
        action := urljoin page_url (formTag.getAttrD "action" "")
        inputs := ((allTags formTag.children).filter
            (fun t => t.name == "input" || t.name == "textarea" || t.name == "select")).map
          (fun t => { name := t.getAttr "name"
                      type := t.getAttr "type"
                      value := t.getAttr "value" }) })

/-! ## The crawl engine

The Crawler class of src/crawler.py is embedded as an explicit state
record driven by a step function.  The HTTP transport and the HTML parser
are the two external collaborators, gathered in an environment record:
fetch returns the body text on success and none on any transport failure
(timeout, connection error, or a status that raise_for_status turns into
an exception), and parse is the BeautifulSoup model.  The print calls and
the inter-request sleep of the source have no observable effect on the
state and are not modelled; the fetched trace and the failed counter
record the fetch attempts and failures that the source only logs. -/

/-- The external collaborators of the crawl engine. -/
structure FetchEnv where
  fetch : String → Option String
  parse : String → TagForest

/-- The mutable state of a Crawler instance: the visited set, the pending
queue, the pages and forms result maps (insertion-ordered, as Python
dicts are), plus the ghost trace of fetch attempts and failure count. -/
structure CrawlState where
  visited : Finset String
  queue : List String
  pages : List (String × String)
  forms : List (String × List FormInfo)
  fetched : List String
  failed : Nat

/-- Embedding of the base-URL field initialisation in Crawler.init:
only trailing slashes are stripped. -/
def initBase (base_url : String) : String :=
  pyRstripSlash base_url

/-- Embedding of the state set up by Crawler.init: empty visited set and
result maps, and a queue holding just the stripped base URL.  The
constructor performs no validation and cannot fail. -/
def initState (base_url : String) : CrawlState :=
  { visited := ∅
    queue := [initBase base_url]
    pages := []
    forms := []
    fetched := []
    failed := 0 }

/-- Assignment into a Python dict modelled as an insertion-ordered
association list: an existing key keeps its position, a new key goes to
the end. -/
def dictInsert {α : Type} (k : String) (v : α) :
    List (String × α) → List (String × α)
  | [] => [(k, v)]
  | (k0, v0) :: rest =>
    if k0 == k then (k0, v) :: rest else (k0, v0) :: dictInsert k v rest

/-- The link-enqueueing loop at the end of a successful iteration of
Crawler.crawl: each link is fragment-stripped and slash-stripped, then
appended when it is non-empty, not yet visited and not already queued.
The visited set seen here does not yet contain the URL being processed,
and the queue grows while the loop runs, exactly as in the source. -/
def enqueueLinks (visited : Finset String) (queue : List String)
    (links : List String) : List String :=
  links.foldl
    (fun q l =>
      let l1 := pyRstripSlash (pyDefrag l)
      if l1 ≠ "" ∧ l1 ∉ visited ∧ l1 ∉ q then q ++ [l1] else q)
    queue

/-- One iteration of the while loop of Crawler.crawl, assuming the loop
condition holds: pop the queue head and strip trailing slashes; skip it
when already visited or on a different domain; otherwise fetch, and on
success record the page, the non-empty form list and the discovered
links; in both fetch outcomes the URL finally enters the visited set. -/
def crawlStep (env : FetchEnv) (base : String) (st : CrawlState) : CrawlState :=
  match st.queue with
  | [] => st
  | u :: rest =>
    let url := pyRstripSlash u
    if url ∈ st.visited ∨ is_same_domain base url = false then
      { st with queue := rest }
    else
      match env.fetch url with
      | none =>
        { st with
            queue := rest
            visited := insert url st.visited
            fetched := st.fetched ++ [url]
            failed := st.failed + 1 }
      | some body =>
        let soup := env.parse body
        let fs := extract_forms soup url
        let links := extract_links soup url
        { visited := insert url st.visited
          queue := enqueueLinks st.visited rest links
          pages := dictInsert url body st.pages
          forms := if fs.isEmpty then st.forms else dictInsert url fs st.forms
          fetched := st.fetched ++ [url]
          failed := st.failed }

/-- The guard of the while loop of Crawler.crawl: the queue is non-empty
and the visited set is below the page budget. -/
def loopCond (maxPages : Nat) (st : CrawlState) : Prop :=
  st.queue ≠ [] ∧ st.visited.card < maxPages

instance (maxPages : Nat) (st : CrawlState) : Decidable (loopCond maxPages st) :=
  inferInstanceAs (Decidable (_ ∧ _))

/-- The negation of the loop guard: the state in which crawl returns. -/
def crawlDone (maxPages : Nat) (st : CrawlState) : Prop :=
  ¬ loopCond maxPages st

instance (maxPages : Nat) (st : CrawlState) : Decidable (crawlDone maxPages st) :=
  inferInstanceAs (Decidable (¬ _))

/-- Fuel-indexed runner for the while loop of Crawler.crawl: perform at
most the given number of iterations, stopping early when the loop guard
fails.  The state after n iterations of the source loop is the value at
fuel n; the returned state of crawl is the value at any fuel at which the
guard has failed. -/
def crawlLoopF (env : FetchEnv) (maxPages : Nat) (base : String) :
    Nat → CrawlState → CrawlState
  | 0, st => st
  | n + 1, st =>
    if loopCond maxPages st then crawlLoopF env maxPages base n (crawlStep env base st)
    else st

/-- The state reached from a fresh Crawler after at most n loop
iterations, for a given base URL: the base field of the instance is the
slash-stripped base URL, as set by the constructor. -/
def crawlRun (env : FetchEnv) (maxPages : Nat) (base_url : String) (n : Nat) : CrawlState :=
  crawlLoopF env maxPages (initBase base_url) n (initState base_url)

/-- The result value of crawl: the pages and forms maps. -/
structure CrawlResult where
  pages : List (String × String)
  forms : List (String × List FormInfo)

/-- Embedding of the return value of Crawler.crawl, read off a state. -/
def crawlResultOf (st : CrawlState) : CrawlResult :=
  { pages := st.pages, forms := st.forms }

/-- The inline normalization applied to each discovered link on line 93
of src/crawler.py: strip the fragment, then trailing slashes. -/
def normalizeUrl (u : String) : String :=
  pyRstripSlash (pyDefrag u)

/-! ## Normalization lemmas -/

theorem mem_of_mem_dropWhile {α : Type} {p : α → Bool} :
    ∀ {l : List α} {x : α}, x ∈ l.dropWhile p → x ∈ l := by
  intro l
  induction l with
  | nil => intro x hx; exact absurd hx (by simp [List.dropWhile])
  | cons a l ih =>
    intro x hx
    rw [List.dropWhile] at hx
    by_cases hpa : p a = true
    · rw [hpa] at hx
      exact List.mem_cons_of_mem a (ih hx)
    · rw [Bool.not_eq_true] at hpa
      rw [hpa] at hx
      exact hx

theorem mem_rstripSlashL {cs : List Char} {c : Char} (h : c ∈ rstripSlashL cs) : c ∈ cs := by
  unfold rstripSlashL at h
  rw [List.mem_reverse] at h
  have := mem_of_mem_dropWhile h
  rwa [List.mem_reverse] at this

theorem rstripSlashL_idem (cs : List Char) :
    rstripSlashL (rstripSlashL cs) = rstripSlashL cs := by
  unfold rstripSlashL
  rw [List.reverse_reverse, List.dropWhile_idempotent]

theorem not_frag_mem_defragL (cs : List Char) : '#' ∉ defragL cs := by
  intro hmem
  have := List.mem_takeWhile_imp hmem
  simp at this

theorem defragL_eq_self (cs : List Char) (h : '#' ∉ cs) : defragL cs = cs := by
  unfold defragL
  rw [List.takeWhile_eq_self_iff]
  intro x hx
  simp only [bne_iff_ne, ne_eq]
  intro hcontra
  exact h (hcontra ▸ hx)

theorem head?_dropWhile_false {α : Type} {p : α → Bool} :
    ∀ {l : List α} {x : α}, (l.dropWhile p).head? = some x → p x = false := by
  intro l
  induction l with
  | nil => intro x hx; simp [List.dropWhile] at hx
  | cons a l ih =>
    intro x hx
    rw [List.dropWhile] at hx
    by_cases hpa : p a = true
    · rw [hpa] at hx
      exact ih hx
    · rw [Bool.not_eq_true] at hpa
      rw [hpa] at hx
      simp at hx
      rw [← hx]
      exact hpa

theorem toList_mk (l : List Char) : (String.mk l).toList = l := rfl

theorem pyRstripSlash_toList (s : String) :
    (pyRstripSlash s).toList = rstripSlashL s.toList := rfl

theorem pyDefrag_toList (s : String) :
    (pyDefrag s).toList = defragL s.toList := rfl

theorem pyRstripSlash_idem (s : String) :
    pyRstripSlash (pyRstripSlash s) = pyRstripSlash s := by
  unfold pyRstripSlash
  rw [toList_mk, rstripSlashL_idem]

theorem pyDefrag_pyRstripSlash_pyDefrag (u : String) :
    pyDefrag (pyRstripSlash (pyDefrag u)) = pyRstripSlash (pyDefrag u) := by
  unfold pyDefrag pyRstripSlash
  rw [toList_mk, toList_mk]
  congr 1
  apply defragL_eq_self
  intro hmem
  exact not_frag_mem_defragL u.toList (mem_rstripSlashL hmem)

theorem pyDefrag_normalizeUrl (u : String) :
    pyDefrag (normalizeUrl u) = normalizeUrl u :=
  pyDefrag_pyRstripSlash_pyDefrag u

theorem pyRstripSlash_normalizeUrl (u : String) :
    pyRstripSlash (normalizeUrl u) = normalizeUrl u := by
  unfold normalizeUrl
  exact pyRstripSlash_idem (pyDefrag u)

theorem no_frag_of_defrag_fix {u : String} (h : pyDefrag u = u) : '#' ∉ u.toList := by
  intro hmem
  rw [← h] at hmem
  exact not_frag_mem_defragL u.toList hmem

theorem no_trailing_slash_of_rstrip_fix {u : String} (h : pyRstripSlash u = u) :
    u.toList.getLast? ≠ some '/' := by
  intro hlast
  rw [← h] at hlast
  rw [pyRstripSlash_toList] at hlast
  unfold rstripSlashL at hlast
  rw [List.getLast?_reverse] at hlast
  have := head?_dropWhile_false hlast
  simp at this

/-! ## Association list lemmas -/

theorem mem_dictInsert {α : Type} {k : String} {v : α} :
    ∀ {d : List (String × α)} {kv : String × α},
      kv ∈ dictInsert k v d → (kv.1 = k ∧ kv.2 = v) ∨ kv ∈ d := by
  intro d
  induction d with
  | nil =>
    intro kv h
    simp [dictInsert] at h
    left
    rw [h]
    exact ⟨rfl, rfl⟩
  | cons hd tl ih =>
    intro kv h
    rw [dictInsert] at h
    by_cases hk : hd.1 == k
    · rw [if_pos (by exact hk)] at h
      rcases List.mem_cons.mp h with h1 | h1
      · left; rw [h1]; exact ⟨beq_iff_eq.mp hk, rfl⟩
      · right; exact List.mem_cons_of_mem hd h1
    · rw [if_neg (by exact hk)] at h
      rcases List.mem_cons.mp h with h1 | h1
      · right; rw [h1]; exact List.mem_cons_self hd tl
      · rcases ih h1 with h2 | h2
        · left; exact h2
        · right; exact List.mem_cons_of_mem hd h2

theorem keys_dictInsert_superset {α : Type} {k k0 : String} {v : α} :
    ∀ {d : List (String × α)},
      k0 ∈ d.map Prod.fst → k0 ∈ (dictInsert k v d).map Prod.fst := by
  intro d
  induction d with
  | nil => intro h; simp at h
  | cons hd tl ih =>
    intro h
    rw [dictInsert]
    rcases List.mem_map.mp h with ⟨kv, hkv, hfst⟩
    by_cases hk : hd.1 == k
    · rcases List.mem_cons.mp hkv with h1 | h1
      · simp only [if_pos hk, List.map_cons]
        rw [← hfst, h1]
        exact List.mem_cons_self _ _
      · simp only [if_pos hk, List.map_cons]
        exact List.mem_cons_of_mem _ (List.mem_map.mpr ⟨kv, h1, hfst⟩)
    · rcases List.mem_cons.mp hkv with h1 | h1
      · simp only [if_neg hk, List.map_cons]
        rw [← hfst, h1]
        exact List.mem_cons_self _ _
      · simp only [if_neg hk, List.map_cons]
        exact List.mem_cons_of_mem _ (ih (List.mem_map.mpr ⟨kv, h1, hfst⟩))

theorem self_mem_keys_dictInsert {α : Type} (k : String) (v : α) :
    ∀ (d : List (String × α)), k ∈ (dictInsert k v d).map Prod.fst := by
  intro d
  induction d with
  | nil => simp [dictInsert]
  | cons hd tl ih =>
    rw [dictInsert]
    by_cases hk : hd.1 == k
    · simp only [if_pos hk, List.map_cons]
      rw [← beq_iff_eq.mp hk]
      exact List.mem_cons_self _ _
    · simp only [if_neg hk, List.map_cons]
      exact List.mem_cons_of_mem _ ih

theorem length_dictInsert_of_not_mem {α : Type} {k : String} {v : α} :
    ∀ {d : List (String × α)}, k ∉ d.map Prod.fst →
      (dictInsert k v d).length = d.length + 1 := by
  intro d
  induction d with
  | nil => intro _; simp [dictInsert]
  | cons hd tl ih =>
    intro h
    rw [dictInsert]
    have hk : ¬ (hd.1 == k) := by
      simp only [List.map_cons, List.mem_cons] at h
      push_neg at h
      simp only [beq_iff_eq]
      exact fun hc => h.1 hc.symm
    rw [if_neg hk]
    simp only [List.length_cons]
    rw [ih (by
      simp only [List.map_cons, List.mem_cons] at h
      push_neg at h
      exact h.2)]

/-! ## Enqueue lemmas -/

theorem mem_enqueueLinks {v : Finset String} :
    ∀ {ls : List String} {q : List String} {x : String},
      x ∈ enqueueLinks v q ls → x ∈ q ∨ ∃ l, x = normalizeUrl l := by
  intro ls
  induction ls with
  | nil => intro q x h; left; exact h
  | cons l ls ih =>
    intro q x h
    rw [enqueueLinks, List.foldl_cons] at h
    rcases ih h with h1 | h1
    · by_cases hc : pyRstripSlash (pyDefrag l) ≠ "" ∧
          pyRstripSlash (pyDefrag l) ∉ v ∧ pyRstripSlash (pyDefrag l) ∉ q
      · rw [if_pos hc] at h1
        rcases List.mem_append.mp h1 with h2 | h2
        · left; exact h2
        · right
          exact ⟨l, by simpa [normalizeUrl] using (List.mem_singleton.mp h2)⟩
      · rw [if_neg hc] at h1
        left; exact h1
    · right; exact h1

/-! ## Runner lemmas -/

theorem crawlLoopF_done {env : FetchEnv} {mp : Nat} {b : String} {st : CrawlState}
    (h : crawlDone mp st) : ∀ n, crawlLoopF env mp b n st = st := by
  intro n
  cases n with
  | zero => rfl
  | succ n =>
    rw [crawlLoopF, if_neg h]

theorem crawlLoopF_add (env : FetchEnv) (mp : Nat) (b : String) :
    ∀ (n m : Nat) (st : CrawlState),
      crawlLoopF env mp b (n + m) st = crawlLoopF env mp b m (crawlLoopF env mp b n st) := by
  intro n
  induction n with
  | zero => intro m st; rw [Nat.zero_add]; rfl
  | succ n ih =>
    intro m st
    by_cases hc : loopCond mp st
    · have : n + 1 + m = (n + m) + 1 := by omega
      rw [this, crawlLoopF, if_pos hc, crawlLoopF, if_pos hc, ih]
    · rw [crawlLoopF, if_neg hc, crawlLoopF_done hc, crawlLoopF_done hc]

theorem crawlLoopF_succ_back (env : FetchEnv) (mp : Nat) (b : String)
    (n : Nat) (st : CrawlState) :
    crawlLoopF env mp b (n + 1) st =
      if loopCond mp (crawlLoopF env mp b n st)
      then crawlStep env b (crawlLoopF env mp b n st)
      else crawlLoopF env mp b n st := by
  rw [crawlLoopF_add env mp b n 1 st]
  by_cases hc : loopCond mp (crawlLoopF env mp b n st)
  · rw [if_pos hc, crawlLoopF, if_pos hc]; rfl
  · rw [if_neg hc, crawlLoopF, if_neg hc]

theorem crawlLoopF_inv (env : FetchEnv) (mp : Nat) (b : String)
    (P : CrawlState → Prop)
    (hstep : ∀ st, loopCond mp st → P st → P (crawlStep env b st)) :
    ∀ (n : Nat) (st : CrawlState), P st → P (crawlLoopF env mp b n st) := by
  intro n
  induction n with
  | zero => intro st h; exact h
  | succ n ih =>
    intro st h
    rw [crawlLoopF]
    by_cases hc : loopCond mp st
    · rw [if_pos hc]
      exact ih _ (hstep st hc h)
    · rw [if_neg hc]
      exact h

/-! ## Step characterization lemmas -/

theorem crawlStep_skip {env : FetchEnv} {b : String} {st : CrawlState} {u : String}
    {rest : List String} (hqe : st.queue = u :: rest)
    (h : pyRstripSlash u ∈ st.visited ∨ is_same_domain b (pyRstripSlash u) = false) :
    crawlStep env b st = { st with queue := rest } := by
  unfold crawlStep
  rw [hqe]
  simp only [if_pos h]

theorem crawlStep_fail {env : FetchEnv} {b : String} {st : CrawlState} {u : String}
    {rest : List String} (hqe : st.queue = u :: rest)
    (h : ¬(pyRstripSlash u ∈ st.visited ∨ is_same_domain b (pyRstripSlash u) = false))
    (hf : env.fetch (pyRstripSlash u) = none) :
    crawlStep env b st =
      { st with
          queue := rest
          visited := insert (pyRstripSlash u) st.visited
          fetched := st.fetched ++ [pyRstripSlash u]
          failed := st.failed + 1 } := by
  unfold crawlStep
  rw [hqe]
  simp only [if_neg h, hf]

theorem crawlStep_success {env : FetchEnv} {b : String} {st : CrawlState} {u : String}
    {rest : List String} {body : String} (hqe : st.queue = u :: rest)
    (h : ¬(pyRstripSlash u ∈ st.visited ∨ is_same_domain b (pyRstripSlash u) = false))
    (hf : env.fetch (pyRstripSlash u) = some body) :
    crawlStep env b st =
      { visited := insert (pyRstripSlash u) st.visited
        queue := enqueueLinks st.visited rest
          (extract_links (env.parse body) (pyRstripSlash u))
        pages := dictInsert (pyRstripSlash u) body st.pages
        forms :=
          if (extract_forms (env.parse body) (pyRstripSlash u)).isEmpty then st.forms
          else dictInsert (pyRstripSlash u)
            (extract_forms (env.parse body) (pyRstripSlash u)) st.forms
        fetched := st.fetched ++ [pyRstripSlash u]
        failed := st.failed } := by
  unfold crawlStep
  rw [hqe]
  simp only [if_neg h, hf]

/-! ## The crawl loop invariant -/

/-- The inductive invariant of the crawl loop, for a crawler whose base
field is b (hence already slash-stripped) and budget mp: the visited set
holds only same-domain, slash-stripped URLs that are fragment-free unless
they are the base itself; queue entries are the base or normalized links;
the pages keys are visited; the forms keys are pages keys with non-empty
form lists; the fetch trace has no repeats and stays inside the visited
set; and the page count plus the failure count equals the visited count,
which stays within the budget. -/
structure Inv (mp : Nat) (b : String) (st : CrawlState) : Prop where
  base_fix : pyRstripSlash b = b
  visited_domain : ∀ u ∈ st.visited, is_same_domain b u = true
  visited_norm : ∀ u ∈ st.visited, u = b ∨ pyDefrag u = u
  visited_slash : ∀ u ∈ st.visited, pyRstripSlash u = u
  queue_norm : ∀ x ∈ st.queue, x = b ∨ (pyDefrag x = x ∧ pyRstripSlash x = x)
  pages_sub : ∀ kv ∈ st.pages, kv.1 ∈ st.visited
  forms_sub : ∀ kv ∈ st.forms, kv.1 ∈ st.pages.map Prod.fst ∧ kv.2 ≠ []
  fetched_nodup : st.fetched.Nodup
  fetched_sub : ∀ u ∈ st.fetched, u ∈ st.visited
  count_eq : st.pages.length + st.failed = st.visited.card
  card_le : st.visited.card ≤ mp

theorem inv_init (mp : Nat) (base_url : String) :
    Inv mp (initBase base_url) (initState base_url) := by
  constructor
  · exact pyRstripSlash_idem base_url
  · intro u hu; simp [initState] at hu
  · intro u hu; simp [initState] at hu
  · intro u hu; simp [initState] at hu
  · intro x hx
    simp [initState] at hx
    left; exact hx
  · intro kv hkv; simp [initState] at hkv
  · intro kv hkv; simp [initState] at hkv
  · simp [initState]
  · intro u hu; simp [initState] at hu
  · simp [initState]
  · simp [initState]

theorem inv_step {env : FetchEnv} {mp : Nat} {b : String} {st : CrawlState}
    (hcond : loopCond mp st) (hinv : Inv mp b st) : Inv mp b (crawlStep env b st) := by
  obtain ⟨hqne, hcard⟩ := hcond
  cases hqe : st.queue with
  | nil => exact absurd hqe hqne
  | cons u rest =>
  have hqn := hinv.queue_norm
  have hrest : ∀ x ∈ rest, x = b ∨ (pyDefrag x = x ∧ pyRstripSlash x = x) := by
    intro x hx
    exact hqn x (by rw [hqe]; exact List.mem_cons_of_mem u hx)
  have hufix : pyRstripSlash (pyRstripSlash u) = pyRstripSlash u := pyRstripSlash_idem u
  have hu_norm : pyRstripSlash u = b ∨
      (pyDefrag (pyRstripSlash u) = pyRstripSlash u ∧
        pyRstripSlash (pyRstripSlash u) = pyRstripSlash u) := by
    rcases hqn u (by rw [hqe]; exact List.mem_cons_self u rest) with h1 | h1
    · left; rw [h1, hinv.base_fix]
    · right
      constructor
      · rw [h1.2, h1.1]
      · exact hufix
  by_cases hskip : pyRstripSlash u ∈ st.visited ∨ is_same_domain b (pyRstripSlash u) = false
  · rw [crawlStep_skip hqe hskip]
    exact { hinv with
      queue_norm := hrest
      visited_domain := hinv.visited_domain
      visited_norm := hinv.visited_norm
      visited_slash := hinv.visited_slash
      pages_sub := hinv.pages_sub
      forms_sub := hinv.forms_sub
      fetched_sub := hinv.fetched_sub }
  · push_neg at hskip
    obtain ⟨hnotvis, hdom⟩ := hskip
    have hdom1 : is_same_domain b (pyRstripSlash u) = true := by
      cases hval : is_same_domain b (pyRstripSlash u)
      · exact absurd hval hdom
      · rfl
    have hcardins : (insert (pyRstripSlash u) st.visited).card = st.visited.card + 1 :=
      Finset.card_insert_of_not_mem hnotvis
    have hvis_dom : ∀ v ∈ insert (pyRstripSlash u) st.visited, is_same_domain b v = true := by
      intro v hv
      rcases Finset.mem_insert.mp hv with h1 | h1
      · rw [h1]; exact hdom1
      · exact hinv.visited_domain v h1
    have hvis_norm : ∀ v ∈ insert (pyRstripSlash u) st.visited,
        v = b ∨ pyDefrag v = v := by
      intro v hv
      rcases Finset.mem_insert.mp hv with h1 | h1
      · rcases hu_norm with h2 | h2
        · left; rw [h1, h2]
        · right; rw [h1]; exact h2.1
      · exact hinv.visited_norm v h1
    have hvis_slash : ∀ v ∈ insert (pyRstripSlash u) st.visited, pyRstripSlash v = v := by
      intro v hv
      rcases Finset.mem_insert.mp hv with h1 | h1
      · rw [h1]; exact hufix
      · exact hinv.visited_slash v h1
    have hfetched_nodup : (st.fetched ++ [pyRstripSlash u]).Nodup := by
      rw [List.nodup_append]
      refine ⟨hinv.fetched_nodup, List.nodup_singleton _, ?_⟩
      intro a ha hb
      rw [List.mem_singleton] at hb
      exact hnotvis (hb ▸ hinv.fetched_sub a ha)
    have hfetched_sub : ∀ v ∈ st.fetched ++ [pyRstripSlash u],
        v ∈ insert (pyRstripSlash u) st.visited := by
      intro v hv
      rcases List.mem_append.mp hv with h1 | h1
      · exact Finset.mem_insert_of_mem (hinv.fetched_sub v h1)
      · rw [List.mem_singleton] at h1
        rw [h1]
        exact Finset.mem_insert_self _ _
    cases hf : env.fetch (pyRstripSlash u) with
    | none =>
      rw [crawlStep_fail hqe (by push_neg; exact ⟨hnotvis, hdom⟩) hf]
      refine ⟨hinv.base_fix, hvis_dom, hvis_norm, hvis_slash, hrest,
        ?_, hinv.forms_sub, hfetched_nodup, hfetched_sub, ?_, ?_⟩
      · intro kv hkv
        exact Finset.mem_insert_of_mem (hinv.pages_sub kv hkv)
      · dsimp only
        rw [hcardins, ← hinv.count_eq]
        omega
      · dsimp only
        rw [hcardins]; omega
    | some body =>
      rw [crawlStep_success hqe (by push_neg; exact ⟨hnotvis, hdom⟩) hf]
      have hnotkey : pyRstripSlash u ∉ st.pages.map Prod.fst := by
        intro hmem
        rcases List.mem_map.mp hmem with ⟨kv, hkv, hfst⟩
        exact hnotvis (hfst ▸ hinv.pages_sub kv hkv)
      refine ⟨hinv.base_fix, hvis_dom, hvis_norm, hvis_slash, ?_, ?_, ?_,
        hfetched_nodup, hfetched_sub, ?_, ?_⟩
      · intro x hx
        rcases mem_enqueueLinks hx with h1 | ⟨l, h1⟩
        · exact hrest x h1
        · right
          rw [h1]
          exact ⟨pyDefrag_normalizeUrl l, pyRstripSlash_normalizeUrl l⟩
      · intro kv hkv
        rcases mem_dictInsert hkv with h1 | h1
        · rw [h1.1]; exact Finset.mem_insert_self _ _
        · exact Finset.mem_insert_of_mem (hinv.pages_sub kv h1)
      · intro kv hkv
        by_cases hfe : (extract_forms (env.parse body) (pyRstripSlash u)).isEmpty
        · rw [if_pos hfe] at hkv
          obtain ⟨h1, h2⟩ := hinv.forms_sub kv hkv
          exact ⟨keys_dictInsert_superset h1, h2⟩
        · rw [if_neg hfe] at hkv
          rcases mem_dictInsert hkv with h1 | h1
          · constructor
            · rw [h1.1]
              exact self_mem_keys_dictInsert _ _ _
            · rw [h1.2]
              intro hc
              rw [hc] at hfe
              exact hfe rfl
          · obtain ⟨h2, h3⟩ := hinv.forms_sub kv h1
            exact ⟨keys_dictInsert_superset h2, h3⟩
      · dsimp only
        rw [hcardins, ← hinv.count_eq, length_dictInsert_of_not_mem hnotkey]
        omega
      · dsimp only
        rw [hcardins]; omega

theorem inv_run (env : FetchEnv) (mp : Nat) (base_url : String) (n : Nat) :
    Inv mp (initBase base_url) (crawlRun env mp base_url n) :=
  crawlLoopF_inv env mp (initBase base_url) (Inv mp (initBase base_url))
    (fun _ hc hi => inv_step hc hi) n (initState base_url) (inv_init mp base_url)

theorem crawlRun_add (env : FetchEnv) (mp : Nat) (base_url : String) (n m : Nat) :
    crawlRun env mp base_url (n + m) =
      crawlLoopF env mp (initBase base_url) m (crawlRun env mp base_url n) :=
  crawlLoopF_add env mp (initBase base_url) n m (initState base_url)

theorem crawlRun_succ_back (env : FetchEnv) (mp : Nat) (base_url : String) (n : Nat) :
    crawlRun env mp base_url (n + 1) =
      if loopCond mp (crawlRun env mp base_url n)
      then crawlStep env (initBase base_url) (crawlRun env mp base_url n)
      else crawlRun env mp base_url n :=
  crawlLoopF_succ_back env mp (initBase base_url) n (initState base_url)

/-! ## Termination of the crawl loop -/

theorem exists_done_aux (env : FetchEnv) (mp : Nat) (b : String) :
    ∀ (k : Nat) (q : Nat) (st : CrawlState),
      mp - st.visited.card < k → st.queue.length < q →
      ∃ n, crawlDone mp (crawlLoopF env mp b n st) := by
  intro k
  induction k with
  | zero => intro q st hk _; omega
  | succ k ihk =>
    intro q
    induction q with
    | zero => intro st _ hq; omega
    | succ q ihq =>
      intro st hk hq
      by_cases hc : loopCond mp st
      · obtain ⟨hqne, hcard⟩ := hc
        have hlift : ∀ st1 : CrawlState,
            (∃ n, crawlDone mp (crawlLoopF env mp b n st1)) →
            st1 = crawlStep env b st →
            ∃ n, crawlDone mp (crawlLoopF env mp b n st) := by
          rintro st1 ⟨n, hn⟩ rfl
          refine ⟨n + 1, ?_⟩
          rw [crawlLoopF, if_pos ⟨hqne, hcard⟩]
          exact hn
        cases hqe : st.queue with
        | nil => exact absurd hqe hqne
        | cons u rest =>
          by_cases hskip : pyRstripSlash u ∈ st.visited ∨
              is_same_domain b (pyRstripSlash u) = false
          · refine hlift _ ?_ rfl
            rw [crawlStep_skip hqe hskip]
            apply ihq
            · dsimp only; exact hk
            · dsimp only
              rw [hqe] at hq
              simp only [List.length_cons] at hq
              omega
          · push_neg at hskip
            have hnotvis := hskip.1
            have hcardins :
                (insert (pyRstripSlash u) st.visited).card = st.visited.card + 1 :=
              Finset.card_insert_of_not_mem hnotvis
            refine hlift _ ?_ rfl
            cases hf : env.fetch (pyRstripSlash u) with
            | none =>
              rw [crawlStep_fail hqe (by push_neg; exact hskip) hf]
              apply ihk ((({ st with
                  queue := rest
                  visited := insert (pyRstripSlash u) st.visited
                  fetched := st.fetched ++ [pyRstripSlash u]
                  failed := st.failed + 1 } : CrawlState)).queue.length + 1)
              · dsimp only
                rw [hcardins]
                omega
              · omega
            | some body =>
              rw [crawlStep_success hqe (by push_neg; exact hskip) hf]
              apply ihk ((enqueueLinks st.visited rest
                  (extract_links (env.parse body) (pyRstripSlash u))).length + 1)
              · dsimp only
                rw [hcardins]
                omega
              · dsimp only
                omega
      · exact ⟨0, hc⟩

theorem exists_done (env : FetchEnv) (mp : Nat) (base_url : String) :
    ∃ n, crawlDone mp (crawlRun env mp base_url n) :=
  exists_done_aux env mp (initBase base_url)
    (mp - (initState base_url).visited.card + 1)
    ((initState base_url).queue.length + 1)
    (initState base_url) (by omega) (by omega)

/-- Embedding of the return value of Crawler.crawl for a given fuel. -/
def crawl (env : FetchEnv) (mp : Nat) (base_url : String) (n : Nat) : CrawlResult :=
  crawlResultOf (crawlRun env mp base_url n)

/-! ## Concrete collaborators for counterexamples and witnesses -/

/-- A transport whose base page links to a cross-domain URL. -/
def envCross : FetchEnv :=
  { fetch := fun u => if u = "http://h" then some "PAGE" else none
    parse := fun h =>
      if h = "PAGE" then .cons (Tag.mk "a" [("href", "http://other.com/c")] .nil) .nil
      else .nil }

/-- A transport for which every fetch succeeds with an empty body. -/
def envEmptyPage : FetchEnv :=
  { fetch := fun _ => some "", parse := fun _ => .nil }

/-- A transport for which every fetch fails. -/
def envFailAll : FetchEnv :=
  { fetch := fun _ => none, parse := fun _ => .nil }

/-- The parsed document of the form example in the spec: a POST form with
action /submit holding one text input named q. -/
def formExampleDoc : TagForest :=
  .cons (Tag.mk "form" [("method", "POST"), ("action", "/submit")]
    (.cons (Tag.mk "input" [("name", "q"), ("type", "text")] .nil) .nil)) .nil

/-- A transport whose base page carries the example form. -/
def envFormPage : FetchEnv :=
  { fetch := fun u => if u = "http://h" then some "F" else none
    parse := fun h => if h = "F" then formExampleDoc else .nil }

/-! ## Claim theorems -/

/-- Claim C9: the URL normalization applied to each discovered link before
enqueueing, stripping the fragment and then any trailing slashes, is
idempotent: normalizing twice equals normalizing once. -/
theorem normalizeUrl_idempotent (u : String) :
    normalizeUrl (normalizeUrl u) = normalizeUrl u := by
  have h1 : normalizeUrl (normalizeUrl u) = pyRstripSlash (pyDefrag (normalizeUrl u)) := rfl
  rw [h1, pyDefrag_normalizeUrl, pyRstripSlash_normalizeUrl]

/-- Claim C7: is_same_domain is true exactly when both URLs parse and
their netloc components are equal; hence it is false whenever the hosts
differ, true whenever they match regardless of path or query, and false
rather than raising whenever either URL is unparsable. -/
theorem is_same_domain_iff (base u : String) :
    is_same_domain base u = true ↔
      ∃ h, netlocE base = Except.ok h ∧ netlocE u = Except.ok h := by
  unfold is_same_domain
  cases hb : netlocE base with
  | error e => simp [hb]
  | ok a =>
    cases hu : netlocE u with
    | error e => simp [hu]
    | ok c =>
      simp only [beq_iff_eq, hu, Except.ok.injEq]
      constructor
      · intro h; exact ⟨a, rfl, h.symm⟩
      · rintro ⟨h0, h1, h2⟩; rw [h1, h2]

/-- Claim C2: at every point in a run of crawl, the visited set holds at
most max_pages URLs and the page count plus the failure count is at most
max_pages; moreover one more unit of fuel performs a loop iteration
exactly when the queue is non-empty and the budget is not yet reached,
and otherwise leaves the state unchanged (the loop exits). -/
theorem crawl_budget (env : FetchEnv) (base_url : String) (mp n : Nat) :
    (crawlRun env mp base_url n).visited.card ≤ mp ∧
    (crawlRun env mp base_url n).pages.length + (crawlRun env mp base_url n).failed ≤ mp ∧
    crawlRun env mp base_url (n + 1) =
      (if loopCond mp (crawlRun env mp base_url n)
       then crawlStep env (initBase base_url) (crawlRun env mp base_url n)
       else crawlRun env mp base_url n) := by
  have h := inv_run env mp base_url n
  refine ⟨h.card_le, ?_, crawlRun_succ_back env mp base_url n⟩
  rw [h.count_eq]
  exact h.card_le

/-- Claim C6: for every behaviour of the fetch collaborator and every
parser (hence every finite collection of discoverable links), the crawl
loop reaches a state in which its guard fails, and from that point on the
returned pages-and-forms result is fixed: crawl terminates and returns
the result structure. -/
theorem crawl_terminates (env : FetchEnv) (mp : Nat) (base_url : String) :
    ∃ n, crawlDone mp (crawlRun env mp base_url n) ∧
      ∀ m, crawl env mp base_url (n + m) = crawlResultOf (crawlRun env mp base_url n) := by
  obtain ⟨n, hn⟩ := exists_done env mp base_url
  refine ⟨n, hn, ?_⟩
  intro m
  unfold crawl
  rw [crawlRun_add]
  rw [crawlLoopF_done hn]

/-- Claim C1, counterexample: the enqueue step applies no same-domain
filter, so after one iteration from the seed http://h a link to host
other.com sits in the frontier queue even though its host differs from
the base host. -/
theorem cross_domain_link_enqueued_cex :
    "http://other.com/c" ∈ (crawlRun envCross 10 "http://h" 1).queue ∧
    netlocE (initBase "http://h") = Except.ok "h" ∧
    netlocE "http://other.com/c" = Except.ok "other.com" ∧
    is_same_domain (initBase "http://h") "http://other.com/c" = false := by
  exact ⟨by decide, rfl, rfl, rfl⟩

/-- Claim C1, amended: cross-domain links can be enqueued onto the
frontier (the enqueue filter checks only non-emptiness, the visited set
and the queue), but the same-domain filter applied at dequeue time
guarantees that every URL that is ever fetched, marked visited, or stored
in the pages map is on the same domain as the base URL. -/
theorem same_domain_filter_at_dequeue (env : FetchEnv) (base_url : String) (mp n : Nat)
    (u : String)
    (h : u ∈ (crawlRun env mp base_url n).visited ∨
      u ∈ (crawlRun env mp base_url n).pages.map Prod.fst ∨
      u ∈ (crawlRun env mp base_url n).fetched) :
    is_same_domain (initBase base_url) u = true := by
  have hi := inv_run env mp base_url n
  rcases h with h | h | h
  · exact hi.visited_domain u h
  · rcases List.mem_map.mp h with ⟨kv, hkv, hfst⟩
    exact hi.visited_domain u (hfst ▸ hi.pages_sub kv hkv)
  · exact hi.visited_domain u (hi.fetched_sub u h)

theorem same_domain_filter_at_dequeue_witness :
    ("http://h" ∈ (crawlRun envCross 10 "http://h" 1).visited ∨
      "http://h" ∈ (crawlRun envCross 10 "http://h" 1).pages.map Prod.fst ∨
      "http://h" ∈ (crawlRun envCross 10 "http://h" 1).fetched) ∧
    is_same_domain (initBase "http://h") "http://h" = true :=
  ⟨Or.inl (by decide),
    same_domain_filter_at_dequeue envCross "http://h" 10 1 "http://h" (Or.inl (by decide))⟩

/-- Claim C5, counterexample: the constructor only strips trailing
slashes from the seed, so a seed base URL carrying a fragment enters the
visited set and the pages map with its fragment intact after one
successful iteration. -/
theorem seed_fragment_preserved_cex :
    "http://h/p#f" ∈ (crawlRun envEmptyPage 5 "http://h/p#f" 1).visited ∧
    "http://h/p#f" ∈ (crawlRun envEmptyPage 5 "http://h/p#f" 1).pages.map Prod.fst ∧
    '#' ∈ "http://h/p#f".toList := by
  exact ⟨by decide, by decide, by decide⟩

/-- Claim C5, amended: every element of the visited set and every key of
the pages map has no trailing slash, and is fragment-free unless it is
the slash-stripped seed itself: discovered links are fragment-stripped
before enqueue, but the seed is only slash-stripped, so a seed carrying a
fragment keeps it. -/
theorem visited_normalized_except_seed (env : FetchEnv) (base_url : String) (mp n : Nat)
    (u : String)
    (h : u ∈ (crawlRun env mp base_url n).visited ∨
      u ∈ (crawlRun env mp base_url n).pages.map Prod.fst) :
    u.toList.getLast? ≠ some '/' ∧ (u = initBase base_url ∨ '#' ∉ u.toList) := by
  have hi := inv_run env mp base_url n
  have hu : u ∈ (crawlRun env mp base_url n).visited := by
    rcases h with h | h
    · exact h
    · rcases List.mem_map.mp h with ⟨kv, hkv, hfst⟩
      exact hfst ▸ hi.pages_sub kv hkv
  constructor
  · exact no_trailing_slash_of_rstrip_fix (hi.visited_slash u hu)
  · exact (hi.visited_norm u hu).imp id no_frag_of_defrag_fix

theorem visited_normalized_except_seed_witness :
    ("http://h/p#f" ∈ (crawlRun envEmptyPage 5 "http://h/p#f" 1).visited ∨
      "http://h/p#f" ∈ (crawlRun envEmptyPage 5 "http://h/p#f" 1).pages.map Prod.fst) ∧
    ("http://h/p#f".toList.getLast? ≠ some '/' ∧
      ("http://h/p#f" = initBase "http://h/p#f" ∨ '#' ∉ "http://h/p#f".toList)) :=
  ⟨Or.inl (by decide),
    visited_normalized_except_seed envEmptyPage "http://h/p#f" 5 1 "http://h/p#f"
      (Or.inl (by decide))⟩

/-- Claim C3: when the dequeued URL is same-domain and unvisited but its
fetch fails, after that iteration the URL is in the visited set, absent
from the pages and forms maps, the failure counter has advanced, the loop
continues with the remaining queue entries, and at every point of the run
no URL is ever fetched more than once. -/
theorem fetch_failure_isolated (env : FetchEnv) (base_url : String) (mp n : Nat)
    (u : String) (rest : List String)
    (hq : (crawlRun env mp base_url n).queue = u :: rest)
    (hcard : (crawlRun env mp base_url n).visited.card < mp)
    (hvis : pyRstripSlash u ∉ (crawlRun env mp base_url n).visited)
    (hdom : is_same_domain (initBase base_url) (pyRstripSlash u) = true)
    (hf : env.fetch (pyRstripSlash u) = none) :
    pyRstripSlash u ∈ (crawlRun env mp base_url (n + 1)).visited ∧
    pyRstripSlash u ∉ (crawlRun env mp base_url (n + 1)).pages.map Prod.fst ∧
    pyRstripSlash u ∉ (crawlRun env mp base_url (n + 1)).forms.map Prod.fst ∧
    (crawlRun env mp base_url (n + 1)).queue = rest ∧
    (crawlRun env mp base_url (n + 1)).failed = (crawlRun env mp base_url n).failed + 1 ∧
    ∀ m, (crawlRun env mp base_url m).fetched.count (pyRstripSlash u) ≤ 1 := by
  have hi := inv_run env mp base_url n
  have hcond : loopCond mp (crawlRun env mp base_url n) := by
    refine ⟨?_, hcard⟩
    rw [hq]
    exact List.cons_ne_nil u rest
  have hnotdom : ¬ (pyRstripSlash u ∈ (crawlRun env mp base_url n).visited ∨
      is_same_domain (initBase base_url) (pyRstripSlash u) = false) := by
    push_neg
    refine ⟨hvis, ?_⟩
    rw [hdom]
    exact fun hc => absurd hc (by simp)
  have hstep : crawlRun env mp base_url (n + 1) =
      { crawlRun env mp base_url n with
          queue := rest
          visited := insert (pyRstripSlash u) (crawlRun env mp base_url n).visited
          fetched := (crawlRun env mp base_url n).fetched ++ [pyRstripSlash u]
          failed := (crawlRun env mp base_url n).failed + 1 } := by
    rw [crawlRun_succ_back, if_pos hcond, crawlStep_fail hq hnotdom hf]
  have hnotpage : pyRstripSlash u ∉ (crawlRun env mp base_url n).pages.map Prod.fst := by
    intro hmem
    rcases List.mem_map.mp hmem with ⟨kv, hkv, hfst⟩
    exact hvis (hfst ▸ hi.pages_sub kv hkv)
  refine ⟨?_, ?_, ?_, ?_, ?_, ?_⟩
  · rw [hstep]; exact Finset.mem_insert_self _ _
  · rw [hstep]; exact hnotpage
  · rw [hstep]
    intro hmem
    rcases List.mem_map.mp hmem with ⟨kv, hkv, hfst⟩
    exact hnotpage (hfst ▸ (hi.forms_sub kv hkv).1)
  · rw [hstep]
  · rw [hstep]
  · intro m
    exact List.nodup_iff_count_le_one.mp (inv_run env mp base_url m).fetched_nodup _

theorem fetch_failure_isolated_witness :
    (crawlRun envFailAll 5 "http://h" 0).queue = "http://h" :: [] ∧
    (crawlRun envFailAll 5 "http://h" 0).visited.card < 5 ∧
    pyRstripSlash "http://h" ∉ (crawlRun envFailAll 5 "http://h" 0).visited ∧
    is_same_domain (initBase "http://h") (pyRstripSlash "http://h") = true ∧
    envFailAll.fetch (pyRstripSlash "http://h") = none ∧
    (pyRstripSlash "http://h" ∈ (crawlRun envFailAll 5 "http://h" 1).visited ∧
      pyRstripSlash "http://h" ∉ (crawlRun envFailAll 5 "http://h" 1).pages.map Prod.fst ∧
      pyRstripSlash "http://h" ∉ (crawlRun envFailAll 5 "http://h" 1).forms.map Prod.fst ∧
      (crawlRun envFailAll 5 "http://h" 1).queue = [] ∧
      (crawlRun envFailAll 5 "http://h" 1).failed = (crawlRun envFailAll 5 "http://h" 0).failed + 1 ∧
      ∀ m, (crawlRun envFailAll 5 "http://h" m).fetched.count (pyRstripSlash "http://h") ≤ 1) :=
  ⟨by decide, by decide, by decide, by decide, rfl,
    fetch_failure_isolated envFailAll "http://h" 5 0 "http://h" []
      (by decide) (by decide) (by decide) (by decide) rfl⟩

/-- Claim C10: at every iteration, every key of the forms map is also a
key of the pages map, and every stored form list is non-empty. -/
theorem forms_keys_in_pages (env : FetchEnv) (base_url : String) (mp n : Nat)
    (kv : String × List FormInfo) (h : kv ∈ (crawlRun env mp base_url n).forms) :
    kv.1 ∈ (crawlRun env mp base_url n).pages.map Prod.fst ∧ kv.2 ≠ [] :=
  (inv_run env mp base_url n).forms_sub kv h

theorem forms_keys_in_pages_witness :
    (("http://h",
        [({ method := "post", action := "http://h/submit",
            inputs := [{ name := some "q", type := some "text", value := none }] } :
          FormInfo)]) ∈ (crawlRun envFormPage 5 "http://h" 1).forms) ∧
    ("http://h" ∈ (crawlRun envFormPage 5 "http://h" 1).pages.map Prod.fst ∧
      [({ method := "post", action := "http://h/submit",
          inputs := [{ name := some "q", type := some "text", value := none }] } :
        FormInfo)] ≠ ([] : List FormInfo)) :=
  ⟨by decide,
    forms_keys_in_pages envFormPage "http://h" 5 1
      ("http://h",
        [{ method := "post", action := "http://h/submit",
           inputs := [{ name := some "q", type := some "text", value := none }] }])
      (by decide)⟩

/-- Claim C4, counterexample: construction with an unparsable base URL
does not fail: the constructor builds an ordinary state (it performs no
parsing at all), the crawl loop then starts and completes without any
error, returning an empty result. -/
theorem invalid_base_accepted_cex :
    netlocE (initBase "http://[x") = Except.error () ∧
    initState "http://[x" =
      { visited := ∅, queue := ["http://[x"], pages := [], forms := [],
        fetched := [], failed := 0 } ∧
    crawlDone 5 (crawlRun envFailAll 5 "http://[x" 1) ∧
    (crawlRun envFailAll 5 "http://[x" 1).pages = [] := by
  exact ⟨rfl, rfl, by decide, rfl⟩

/-- Claim C4, amended: the constructor never fails; it performs no
validation and only strips trailing slashes from the base URL.  With an
unparsable base URL the crawler is still constructed and the loop runs:
the same-domain check fails closed, the seed is skipped, and the crawl
returns an empty result, with nothing visited and nothing fetched. -/
theorem invalid_base_crawl_empty (env : FetchEnv) (base_url : String) (mp : Nat)
    (herr : netlocE (initBase base_url) = Except.error ()) (n : Nat) :
    (crawlRun env mp base_url n).pages = [] ∧
    (crawlRun env mp base_url n).forms = [] ∧
    (crawlRun env mp base_url n).visited = ∅ ∧
    (crawlRun env mp base_url n).fetched = [] := by
  have hdf : ∀ x, is_same_domain (initBase base_url) x = false := by
    intro x
    unfold is_same_domain
    rw [herr]
  have key : ∀ m, crawlRun env mp base_url m = initState base_url ∨
      crawlRun env mp base_url m = { initState base_url with queue := [] } := by
    intro m
    induction m with
    | zero => left; rfl
    | succ m ih =>
      rw [crawlRun_succ_back]
      by_cases hc : loopCond mp (crawlRun env mp base_url m)
      · rw [if_pos hc]
        rcases ih with h | h
        · right
          rw [h]
          rw [crawlStep_skip (show (initState base_url).queue = initBase base_url :: []
            from rfl) (Or.inr (hdf _))]
        · exfalso
          obtain ⟨hqne, _⟩ := hc
          rw [h] at hqne
          exact hqne rfl
      · rw [if_neg hc]
        exact ih
  rcases key n with h | h <;> rw [h] <;> exact ⟨rfl, rfl, rfl, rfl⟩

theorem invalid_base_crawl_empty_witness :
    netlocE (initBase "http://[x") = Except.error () ∧
    ((crawlRun envEmptyPage 5 "http://[x" 3).pages = [] ∧
      (crawlRun envEmptyPage 5 "http://[x" 3).forms = [] ∧
      (crawlRun envEmptyPage 5 "http://[x" 3).visited = ∅ ∧
      (crawlRun envEmptyPage 5 "http://[x" 3).fetched = []) :=
  ⟨rfl, invalid_base_crawl_empty envEmptyPage "http://[x" 5 rfl 3⟩

/-- Claim C8: extract_forms yields one descriptor per form element; the
method defaults to get and is lowercased and an absent action resolves to
the page URL itself; and on the example form markup, a POST form with
action /submit holding one named text input, the result on page
http://h/p is exactly the single expected descriptor with the action
resolved to http://h/submit and the missing value attribute absent. -/
theorem extract_forms_spec :
    (∀ (soup : TagForest) (page_url : String),
      (extract_forms soup page_url).length =
        ((allTags soup).filter (fun t => t.name == "form")).length) ∧
    (∀ page_url : String,
      extract_forms (.cons (Tag.mk "form" [] .nil) .nil) page_url =
        [{ method := "get", action := page_url, inputs := [] }]) ∧
    extract_forms formExampleDoc "http://h/p" =
      [{ method := "post", action := "http://h/submit",
         inputs := [{ name := some "q", type := some "text", value := none }] }] := by
  refine ⟨?_, ?_, by decide⟩
  · intro soup page_url
    unfold extract_forms
    rw [List.length_map]
  · intro page_url
    have h0 : extract_forms (.cons (Tag.mk "form" [] .nil) .nil) page_url =
        [{ method := "get", action := urljoin page_url "", inputs := [] }] := rfl
    rw [h0]
    have h1 : urljoin page_url "" = page_url := by
      unfold urljoin
      by_cases h : page_url = ""
      · rw [if_pos h, h]
      · rw [if_neg h, if_pos rfl]
    rw [h1]

end Crawl
